import Mathlib

/-!
# Verification of the cdnjs KV ingestion-and-publish pipeline

Shallow embedding of the key-value client (`kv/kv.go`), the file
write-request builder (`kv/files.go`), the version-manifest writer
(`kv/versions.go`) and the disk-ingestion orchestrator, together with
proofs of the batching, size-cap, error-propagation and key-naming
properties.

Byte slices are modelled as `List Nat` (one entry per byte); machine
`int64` size arithmetic is modelled as `Nat` (all sizes in the source are
non-negative lengths of in-memory slices, so no overflow or sign issues
arise).  Remote calls are modelled by an explicit response oracle and an
explicit log of issued calls.
-/

namespace Cdnjs

/-! ## Bytes and base64 (encoding/base64, StdEncoding) -/

/-- Standard base64 alphabet, as in Go `encoding/base64.StdEncoding`. -/
def base64Alphabet : List Char :=
  "ABCDEFGHIJKLMNOPQRSTUVWXYZabcdefghijklmnopqrstuvwxyz0123456789+/".data

/-- Character for a 6-bit group. -/
def b64Char (n : Nat) : Char := base64Alphabet.getD n '='

/-- Function `encodeToBase64` from `kv/kv.go`: base64-encodes a byte slice
(Go `base64.StdEncoding.EncodeToString`), including `=` padding. -/
def encodeToBase64 : List Nat → List Char
  | [] => []
  | [a] => [b64Char (a / 4), b64Char (a % 4 * 16), '=', '=']
  | [a, b] => [b64Char (a / 4), b64Char (a % 4 * 16 + b / 16), b64Char (b % 16 * 4), '=']
  | a :: b :: c :: rest =>
      b64Char (a / 4) :: b64Char (a % 4 * 16 + b / 16) ::
        b64Char (b % 16 * 4 + c / 64) :: b64Char (c % 64) :: encodeToBase64 rest

/-- Length of a base64 encoding: 4 output characters per 3 input bytes,
rounded up (`base64.StdEncoding.EncodedLen`). -/
theorem encodeToBase64_length : ∀ v : List Nat,
    (encodeToBase64 v).length = 4 * ((v.length + 2) / 3)
  | [] => rfl
  | [a] => by simp [encodeToBase64]
  | [a, b] => by simp [encodeToBase64]
  | a :: b :: c :: rest => by
      have ih := encodeToBase64_length rest
      simp only [encodeToBase64, List.length_cons, ih]
      omega

/-! ## JSON marshalling (encoding/json), restricted to the two shapes the
source marshals: `FileMetadata` structs and `[]string` values. -/

/-- Lower-case hex digit. -/
def hexDigit (n : Nat) : Char :=
  if n < 10 then Char.ofNat (48 + n) else Char.ofNat (87 + n)

/-- Go `encoding/json` escaping of one character inside a string literal
(default encoder: HTML characters `<`, `>`, `&` and the separators
U+2028/U+2029 are `\u`-escaped; `"` and `\` are backslash-escaped;
control characters use `\n`, `\r`, `\t` or `\u00XX`). -/
def jsonEscapeChar (c : Char) : List Char :=
  if c = '"' then ['\\', '"']
  else if c = '\\' then ['\\', '\\']
  else if c = '\n' then ['\\', 'n']
  else if c = '\r' then ['\\', 'r']
  else if c = '\t' then ['\\', 't']
  else if c = '<' then ['\\', 'u', '0', '0', '3', 'c']
  else if c = '>' then ['\\', 'u', '0', '0', '3', 'e']
  else if c = '&' then ['\\', 'u', '0', '0', '2', '6']
  else if c.toNat < 32 then
    ['\\', 'u', '0', '0', hexDigit (c.toNat / 16), hexDigit (c.toNat % 16)]
  else if c.toNat = 0x2028 then ['\\', 'u', '2', '0', '2', '8']
  else if c.toNat = 0x2029 then ['\\', 'u', '2', '0', '2', '9']
  else [c]

/-- JSON string literal for `s`, double quotes included. -/
def jsonQuote (s : String) : List Char :=
  '"' :: (s.data.flatMap jsonEscapeChar) ++ ['"']

/-- JSON array elements, comma-separated. -/
def jsonListBody : List String → List Char
  | [] => []
  | [s] => jsonQuote s
  | s :: rest => jsonQuote s ++ ',' :: jsonListBody rest

/-- Result of `json.Marshal` on a `[]string` (as marshalled by
`updateVersionRequest` in `kv/versions.go`). -/
def jsonMarshalStringList (ss : List String) : List Char :=
  '[' :: jsonListBody ss ++ [']']

/-- UTF-8 independent byte view of an (ASCII) string: the source handles
keys and JSON output as `[]byte`; we identify a character with its code
point, which coincides with the byte encoding on the ASCII data the
pipeline produces. -/
def strBytes (cs : List Char) : List Nat := cs.map Char.toNat

/-! ## Go `path` package: `Ext`, `Clean`, `Join` -/

/-- Helper for `pathExt`: scans the reversed character list; `acc` holds
the characters already passed over (in original order). -/
def pathExtAux (acc : List Char) : List Char → List Char
  | [] => []
  | c :: rest =>
      if c = '/' then []
      else if c = '.' then '.' :: acc
      else pathExtAux (c :: acc) rest

/-- Go `path.Ext`: the suffix beginning at the final dot in the final
slash-separated element; empty if there is no dot. -/
def pathExt (s : String) : String := ⟨pathExtAux [] s.data.reverse⟩

/-- Split a character list on `'/'` (keeping empty pieces, as
`strings.Split` would). -/
def splitSlash : List Char → List (List Char)
  | [] => [[]]
  | c :: rest =>
      if c = '/' then [] :: splitSlash rest
      else
        match splitSlash rest with
        | [] => [[c]]
        | e :: es => (c :: e) :: es

/-- Join path elements with `'/'`. -/
def joinSlash : List (List Char) → List Char
  | [] => []
  | [e] => e
  | e :: es => e ++ '/' :: joinSlash es

/-- Element processing of Go `path.Clean`: `.` elements are dropped,
`..` pops the previous element (or is kept/dropped at the start of a
relative/rooted path), everything else is pushed.  `acc` is the output
stack in reverse order. -/
def cleanElems (rooted : Bool) (acc : List (List Char)) :
    List (List Char) → List (List Char)
  | [] => acc.reverse
  | e :: rest =>
      if e = ['.'] then cleanElems rooted acc rest
      else if e = ['.', '.'] then
        match acc with
        | [] => if rooted then cleanElems rooted [] rest
                else cleanElems rooted [e] rest
        | top :: accTail =>
            if top = ['.', '.'] then cleanElems rooted (e :: acc) rest
            else cleanElems rooted accTail rest
      else cleanElems rooted (e :: acc) rest

/-- Go `path.Clean` on a character list: collapses repeated slashes,
resolves `.` and `..` elements, removes trailing slashes, and returns
`"."` for an empty result. -/
def cleanList (s : List Char) : List Char :=
  let rooted := s.head? = some '/'
  let elems := (splitSlash s).filter (fun e => ¬ e.isEmpty)
  let body := joinSlash (cleanElems rooted [] elems)
  if rooted then '/' :: body
  else if body.isEmpty then ['.']
  else body

/-- Go `path.Join` for two elements: empty elements are dropped, the
rest are joined with `'/'` and cleaned; all-empty input yields `""`. -/
def pathJoin (a b : String) : String :=
  if a.data.isEmpty ∧ b.data.isEmpty then ""
  else if a.data.isEmpty then ⟨cleanList b.data⟩
  else if b.data.isEmpty then ⟨cleanList a.data⟩
  else ⟨cleanList (a.data ++ '/' :: b.data)⟩

/-! ### Well-formed relative paths

File paths produced by listing a version directory are non-empty
slash-separated sequences of normal elements: no element is empty (so no
leading, trailing or doubled slash) and none is `.` or `..`.  On such
paths `Clean` is the identity and `Join` is plain concatenation. -/

/-- A path element is "good" when it is non-empty and neither `.` nor
`..`. -/
def goodElem (e : List Char) : Bool :=
  ¬ e.isEmpty ∧ e ≠ ['.'] ∧ e ≠ ['.', '.']

/-- A good path: every slash-separated piece is a good element. -/
def goodPath (s : String) : Bool :=
  (splitSlash s.data).all goodElem

theorem splitSlash_ne_nil : ∀ s : List Char, splitSlash s ≠ []
  | [] => by simp [splitSlash]
  | c :: rest => by
      simp only [splitSlash]
      split
      · simp
      · cases h : splitSlash rest with
        | nil => simp
        | cons e es => simp

/-- Splitting distributes over a separator in the middle. -/
theorem splitSlash_append : ∀ xs ys : List Char,
    splitSlash (xs ++ '/' :: ys) = splitSlash xs ++ splitSlash ys
  | [], ys => by simp [splitSlash]
  | c :: xs, ys => by
      have ih := splitSlash_append xs ys
      by_cases hc : c = '/'
      · simp only [List.cons_append, splitSlash, if_pos hc, List.append_eq, ih]
      · simp only [List.cons_append, splitSlash, if_neg hc, List.append_eq, ih]
        cases h : splitSlash xs with
        | nil => exact absurd h (splitSlash_ne_nil xs)
        | cons e es => simp [h]

/-- Re-joining the split pieces restores the original list. -/
theorem joinSlash_splitSlash : ∀ s : List Char, joinSlash (splitSlash s) = s
  | [] => rfl
  | c :: rest => by
      by_cases hc : c = '/'
      · subst hc
        simp only [splitSlash, if_pos rfl]
        have h := joinSlash_splitSlash rest
        cases hs : splitSlash rest with
        | nil => exact absurd hs (splitSlash_ne_nil rest)
        | cons e es => simp [joinSlash, hs ▸ h]
      · simp only [splitSlash, if_neg hc]
        have h := joinSlash_splitSlash rest
        cases hs : splitSlash rest with
        | nil => exact absurd hs (splitSlash_ne_nil rest)
        | cons e es =>
            rw [hs] at h
            cases es with
            | nil => simp_all [joinSlash]
            | cons e2 es2 => simp_all [joinSlash]

/-- On a list of good elements the `Clean` stack machine is the
identity. -/
theorem cleanElems_of_good (rooted : Bool) :
    ∀ (elems acc : List (List Char)), (∀ e ∈ elems, goodElem e) →
      cleanElems rooted acc elems = acc.reverse ++ elems
  | [], acc, _ => by simp [cleanElems]
  | e :: rest, acc, h => by
      have he : goodElem e := h e (by simp)
      have hrest : ∀ x ∈ rest, goodElem x := fun x hx => h x (by simp [hx])
      simp only [goodElem, List.isEmpty_iff, decide_eq_true_eq] at he
      simp only [cleanElems, if_neg he.2.1, if_neg he.2.2,
        cleanElems_of_good rooted rest (e :: acc) hrest]
      simp

theorem goodPath_data_ne_nil {s : String} (h : goodPath s) : s.data ≠ [] := by
  intro hnil
  simp only [goodPath, hnil, splitSlash, List.all_cons, List.all_nil,
    Bool.and_true, goodElem] at h
  simp at h

theorem goodPath_head_ne_slash {s : String} (h : goodPath s) :
    s.data.head? ≠ some '/' := by
  intro hhead
  cases hd : s.data with
  | nil => exact goodPath_data_ne_nil h hd
  | cons c rest =>
      rw [hd] at hhead
      simp only [List.head?] at hhead
      have hc : c = '/' := by injection hhead
      simp only [goodPath, hd, splitSlash, if_pos hc, List.all_cons,
        goodElem] at h
      simp at h

/-- Cleaning is the identity on good paths. -/
theorem cleanList_of_good {s : String} (h : goodPath s) :
    cleanList s.data = s.data := by
  have hroot : (s.data.head? = some '/') = False := by
    simp [goodPath_head_ne_slash h]
  have hgood : ∀ e ∈ splitSlash s.data, goodElem e := by
    simpa [goodPath, List.all_eq_true] using h
  have hfilter : (splitSlash s.data).filter (fun e => ¬ e.isEmpty) =
      splitSlash s.data := by
    apply List.filter_eq_self.mpr
    intro e he
    have := hgood e he
    simp only [goodElem, Bool.decide_and, Bool.and_eq_true,
      decide_eq_true_eq] at this ⊢
    simp [this.1]
  simp only [cleanList, hroot, hfilter]
  rw [cleanElems_of_good _ _ _ hgood]
  simp only [List.reverse_nil, List.nil_append, joinSlash_splitSlash]
  have hne := goodPath_data_ne_nil h
  simp [List.isEmpty_iff, hne]

/-- On good paths, `path.Join` is concatenation with a slash. -/
theorem pathJoin_of_good {a b : String} (ha : goodPath a) (hb : goodPath b) :
    pathJoin a b = a ++ "/" ++ b := by
  have hagood : ∀ e ∈ splitSlash a.data, goodElem e := by
    simpa [goodPath, List.all_eq_true] using ha
  have hbgood : ∀ e ∈ splitSlash b.data, goodElem e := by
    simpa [goodPath, List.all_eq_true] using hb
  have hane : a.data ≠ [] := goodPath_data_ne_nil ha
  have hbne : b.data ≠ [] := goodPath_data_ne_nil hb
  have hcat : (a ++ "/" ++ b).data = a.data ++ '/' :: b.data := by
    simp [String.data_append]
  have hgoodcat : goodPath (a ++ "/" ++ b) := by
    simp only [goodPath, hcat, splitSlash_append, List.all_append,
      Bool.and_eq_true, List.all_eq_true]
    exact ⟨fun e he => hagood e he, fun e he => hbgood e he⟩
  have hclean := cleanList_of_good hgoodcat
  rw [hcat] at hclean
  simp only [pathJoin, List.isEmpty_iff, hane, hbne]
  simp only [hane, hbne, and_false, false_and, if_false, if_neg hane,
    if_neg hbne, hclean]
  apply String.ext
  simp [String.data_append]

/-! ## KV data model (`kv/kv.go`) -/

/-- Struct `FileMetadata` from `kv/kv.go`: ETag plus formatted last-modified
timestamp, with JSON tags `etag` and `last_modified`. -/
structure FileMetadata where
  etag : String
  lastModified : String
  deriving Repr, DecidableEq

/-- Result of `json.Marshal` on a `FileMetadata` value (field order follows the
struct declaration, tags `etag` / `last_modified`). -/
def jsonMarshalMeta (m : FileMetadata) : List Nat :=
  strBytes ('\x7b' :: jsonQuote "etag" ++ ':' :: jsonQuote m.etag ++
    ',' :: jsonQuote "last_modified" ++ ':' :: jsonQuote m.lastModified ++ ['\x7d'])

/-- Struct `writeRequest` from `kv/kv.go` / `kv/files.go`: a string key, the
file name relative to the version directory, a byte value, and optional
file metadata.  (`kv/files.go` populates `name`; the version-manifest
request leaves it empty.) -/
structure WriteReq where
  key : String
  name : String
  value : List Nat
  meta : Option FileMetadata
  deriving Repr, DecidableEq

/-- Struct `cloudflare.WorkersKVPair` as filled in by `encodeAndWriteKVBulk`:
the value is the base64-encoded payload with the `Base64` flag set, plus
the optional metadata. -/
structure KVPair where
  key : String
  value : List Char
  base64 : Bool
  metadata : Option FileMetadata
  deriving Repr, DecidableEq

/-- The backend size/count caps from the `util` package configuration
(`util.MaxFileSize`, `util.MaxMetadataSize`, `util.MaxBulkWritePayload`,
`util.MaxBulkKeys`).  Modelled from the spec: the ingestion core reads
these as configuration constants of its `util` collaborator, whose
source is not part of this tree, so they are carried as explicit
parameters here. -/
structure Limits where
  maxFileSize : Nat
  maxMetadataSize : Nat
  maxBulkWritePayload : Nat
  maxBulkKeys : Nat
  deriving Repr, DecidableEq

/-- Diagnostics recorded for dropped entries: `util.Debugf` for an
oversized file, `util.Debugf` + `sentry.NotifyError` for oversized
metadata, each identifying the key and the offending size. -/
inductive Diag where
  | oversizedFile (key : String) (size : Nat)
  | oversizedMetadata (key : String) (size : Nat)
  deriving Repr, DecidableEq

/-- Serialized metadata length of a request (`len(json.Marshal(meta))`),
`0` when no metadata is attached. -/
def metaLen (kv : WriteReq) : Nat :=
  match kv.meta with
  | some m => (jsonMarshalMeta m).length
  | none => 0

/-- The per-entry acceptance test of `encodeAndWriteKVBulk`: the *raw*
value length is at most `util.MaxFileSize` and, when metadata is
present, its JSON serialization is at most `util.MaxMetadataSize`. -/
def keep (L : Limits) (kv : WriteReq) : Bool :=
  kv.value.length ≤ L.maxFileSize ∧ metaLen kv ≤ L.maxMetadataSize

/-- The diagnostic emitted for a dropped request (file-size check runs
first). -/
def diagOf (L : Limits) (kv : WriteReq) : Diag :=
  if kv.value.length > L.maxFileSize then .oversizedFile kv.key kv.value.length
  else .oversizedMetadata kv.key (metaLen kv)

/-- The `WorkersKVPair` built for an accepted request: base64-encoded
value, `Base64` flag, metadata copied over. -/
def toPair (kv : WriteReq) : KVPair :=
  { key := kv.key
    value := encodeToBase64 kv.value
    base64 := true
    metadata := kv.meta }

/-- The transport size charged to a request inside a batch: encoded
value length plus serialized metadata length (the running `size`
variable of `encodeAndWriteKVBulk`). -/
def entrySize (kv : WriteReq) : Nat :=
  (encodeToBase64 kv.value).length + metaLen kv

/-- Size charged to an already-built pair. -/
def pairSize (p : KVPair) : Nat :=
  p.value.length + (match p.metadata with
    | some m => (jsonMarshalMeta m).length
    | none => 0)

/-- Cumulative transport size of one batch. -/
def batchSize (b : List KVPair) : Nat := (b.map pairSize).sum

/-- Loop state of `encodeAndWriteKVBulk`'s batching pass: completed
batches, the batch under construction, its running size and key count,
plus the recorded diagnostics and the names of accepted requests
(`successfulWrites`). -/
structure BulkState where
  bulkWrites : List (List KVPair)
  bulkWrite : List KVPair
  totalSize : Nat
  totalKeys : Nat
  dropped : List Diag
  pushed : List String
  deriving Repr

/-- Initial loop state. -/
def initState : BulkState :=
  { bulkWrites := [], bulkWrite := [], totalSize := 0, totalKeys := 0,
    dropped := [], pushed := [] }

/-- Adding one accepted pair: if the running batch would exceed
`util.MaxBulkWritePayload` or has reached `util.MaxBulkKeys`, it is
closed and a fresh batch started; then the pair is appended and the
running totals updated. -/
def addPair (L : Limits) (st : BulkState) (p : KVPair) (size : Nat)
    (name : String) : BulkState :=
  let st' :=
    if st.totalSize + size > L.maxBulkWritePayload ∨ st.totalKeys = L.maxBulkKeys
    then { st with bulkWrites := st.bulkWrites ++ [st.bulkWrite],
                   bulkWrite := [], totalSize := 0, totalKeys := 0 }
    else st
  { st' with bulkWrite := st'.bulkWrite ++ [p],
             totalSize := st'.totalSize + size,
             totalKeys := st'.totalKeys + 1,
             pushed := st'.pushed ++ [name] }

/-- One iteration of the `for _, kv := range kvs` loop of
`encodeAndWriteKVBulk`: oversized raw values and oversized metadata are
dropped with a diagnostic, everything else is base64-encoded and added
to the current batch. -/
def bulkStep (L : Limits) (st : BulkState) (kv : WriteReq) : BulkState :=
  if kv.value.length > L.maxFileSize then
    { st with dropped := st.dropped ++ [Diag.oversizedFile kv.key kv.value.length] }
  else
    let encodedValue := encodeToBase64 kv.value
    let size := encodedValue.length
    match kv.meta with
    | some m =>
        let mbytes := jsonMarshalMeta m
        if mbytes.length > L.maxMetadataSize then
          { st with dropped := st.dropped ++ [Diag.oversizedMetadata kv.key mbytes.length] }
        else
          addPair L st { key := kv.key, value := encodedValue, base64 := true,
                         metadata := some m } (size + mbytes.length) kv.name
    | none =>
        addPair L st { key := kv.key, value := encodedValue, base64 := true,
                       metadata := none } size kv.name

/-- The batching pass of `encodeAndWriteKVBulk`: fold the loop body over
the requests and append the final (possibly empty) batch,
`bulkWrites = append(bulkWrites, bulkWrite)`.  Returns the batches, the
diagnostics and the accepted names. -/
def buildBulks (L : Limits) (kvs : List WriteReq) :
    List (List KVPair) × List Diag × List String :=
  let st := kvs.foldl (bulkStep L) initState
  (st.bulkWrites ++ [st.bulkWrite], st.dropped, st.pushed)

/-! ## Key-Value client calls -/

/-- Struct `cloudflare.Response`, reduced to its success flag. -/
structure CFResponse where
  success : Bool
  deriving Repr, DecidableEq

/-- Function `checkSuccess` from `kv/kv.go`: a call errors when the transport
error is non-nil, or when the response reports `Success == false`. -/
def checkSuccess (r : CFResponse) (err : Option String) : Option String :=
  match err with
  | some e => some e
  | none => if ¬ r.success then some "kv fail" else none

/-- One issued `WriteWorkersKVBulk` call: target namespace and the batch
it carried. -/
structure BulkCall where
  ns : String
  pairs : List KVPair
  deriving Repr, DecidableEq

/-- The remote backend, modelled as an oracle from (namespace, batch) to
the returned `(Response, error)` pair. -/
def Backend := String → List KVPair → CFResponse × Option String

/-- The write loop of `encodeAndWriteKVBulk`: issue one bulk call per
batch, in order, stopping at the first call whose `checkSuccess` is
non-nil.  Returns the log of issued calls and the terminating error. -/
def writeBulks (respond : Backend) (ns : String) :
    List (List KVPair) → List BulkCall → List BulkCall × Option String
  | [], log => (log, none)
  | b :: rest, log =>
      let (r, e) := respond ns b
      match checkSuccess r e with
      | none => writeBulks respond ns rest (log ++ [⟨ns, b⟩])
      | some msg => (log ++ [⟨ns, b⟩], some msg)

/-- Function `encodeAndWriteKVBulk` from `kv/kv.go`: build the batches, then
write them one bulk call at a time.  Returns the call log, the oversize
diagnostics, the names of successfully written requests (empty on
failure) and the error.  (The body is the one in `kv/kv.go`; the
returned name list follows the `successfulWrites` return value that
`updateKVFiles`' signature and the adjacent commented-out revision
require.) -/
def encodeAndWriteKVBulk (respond : Backend) (L : Limits)
    (kvs : List WriteReq) (ns : String) :
    List BulkCall × List Diag × List String × Option String :=
  let (batches, dropped, pushed) := buildBulks L kvs
  let (log, err) := writeBulks respond ns batches []
  (log, dropped, if err = none then pushed else [], err)

/-! ## File write requests (`kv/files.go`) -/

/-- Extension classes from `kv/files.go`: `.br`/`.gz` files are ignored
entirely. -/
def isIgnoredExt (e : String) : Bool := e = ".br" ∨ e = ".gz"

/-- Files with extension `.woff2` are uploaded but not compressed. -/
def isDoNotCompressExt (e : String) : Bool := e = ".woff2"

/-- One source file of a version directory, as observed by
`getFileWriteRequests`: its relative path, its bytes (the
`ioutil.ReadFile` result), and the `os.Stat` information the metadata is
derived from (`ModTime` in Unix seconds, `Size`, and the
`http.TimeFormat`-formatted modification time). -/
structure FileInfo where
  path : String
  content : List Nat
  modSeconds : Nat
  size : Nat
  lastModifiedStr : String
  deriving Repr, DecidableEq

/-- Go `%x` formatting of a non-negative integer. -/
def hexStr (n : Nat) : String := ⟨Nat.toDigits 16 n⟩

/-- The ETag synthesized in `getFileWriteRequests`:
`fmt.Sprintf("%x-%x", lastModifiedSeconds, info.Size())`. -/
def etagOf (f : FileInfo) : String := hexStr f.modSeconds ++ "-" ++ hexStr f.size

/-- The `FileMetadata` attached to a file's write requests. -/
def metaOf (f : FileInfo) : FileMetadata :=
  { etag := etagOf f, lastModified := f.lastModifiedStr }

/-- The write requests produced for one source file, following the loop
body of `getFileWriteRequests`: ignored extensions produce nothing,
do-not-compress extensions produce the single uncompressed entry, and
every other file produces a brotli entry (`.br` key) and a gzip entry
(`.gz` key).  The compressors (`compress.Brotli11CLI`,
`compress.Gzip9Native`) are injected as functions of the file bytes. -/
def perFileRequests (br gz : List Nat → List Nat) (baseVersionPath : String)
    (f : FileInfo) : List WriteReq :=
  let ext := pathExt f.path
  if isIgnoredExt ext then []
  else
    let baseFileKey := pathJoin baseVersionPath f.path
    let meta := metaOf f
    if isDoNotCompressExt ext then
      [{ key := baseFileKey, name := f.path, value := f.content, meta := some meta }]
    else
      [{ key := baseFileKey ++ ".br", name := f.path ++ ".br",
         value := br f.content, meta := some meta },
       { key := baseFileKey ++ ".gz", name := f.path ++ ".gz",
         value := gz f.content, meta := some meta }]

/-- Function `getFileWriteRequests` from `kv/files.go`: iterate the version's
files in order, accumulating each file's requests.  (File system reads
are modelled by the `FileInfo` records carrying the stat/read results.) -/
def getFileWriteRequests (br gz : List Nat → List Nat)
    (pkg version : String) (files : List FileInfo) : List WriteReq :=
  let baseVersionPath := pathJoin pkg version
  files.flatMap (perFileRequests br gz baseVersionPath)

/-- Function `updateKVFiles` from `kv/files.go`: build the file write requests
and push them to the files namespace in bulk, returning the names of
the files pushed. -/
def updateKVFiles (respond : Backend) (L : Limits) (filesNS : String)
    (br gz : List Nat → List Nat) (pkg version : String)
    (files : List FileInfo) :
    List BulkCall × List Diag × List String × Option String :=
  encodeAndWriteKVBulk respond L (getFileWriteRequests br gz pkg version files) filesNS

/-! ## Version manifest (`kv/versions.go`) -/

/-- Function `updateVersionRequest` from `kv/versions.go`: the manifest entry for
`pkg/version`, whose value is the JSON array of the published file
names. -/
def updateVersionRequest (pkg version : String) (files : List String) : WriteReq :=
  { key := pathJoin pkg version
    name := ""
    value := strBytes (jsonMarshalStringList files)
    meta := none }

/-- Function `updateKVVersion` from `kv/versions.go`: write the single manifest
request to the versions namespace. -/
def updateKVVersion (respond : Backend) (L : Limits) (versionsNS : String)
    (pkg version : String) (files : List String) :
    List BulkCall × List Diag × List String × Option String :=
  encodeAndWriteKVBulk respond L [updateVersionRequest pkg version files] versionsNS

/-- Function `InsertNewVersionToKV` from `kv/kv.go`: push the version's file
entries (`updateKVFiles`); only if that succeeds, write the version
manifest listing the pushed file names (`updateKVVersion`).  Returns
the log of every bulk call issued and the terminating error.
(`util.ListFilesInVersion` is modelled by the `files` argument.) -/
def insertNewVersionToKV (respond : Backend) (L : Limits)
    (filesNS versionsNS : String) (br gz : List Nat → List Nat)
    (pkg version : String) (files : List FileInfo) :
    List BulkCall × Option String :=
  let (log1, _, names, err1) := updateKVFiles respond L filesNS br gz pkg version files
  match err1 with
  | some e => (log1, some e)
  | none =>
      let (log2, _, _, err2) := updateKVVersion respond L versionsNS pkg version names
      (log1 ++ log2, err2)

/-! ## Disk-ingestion orchestrator (`InsertFromDisk`)

The orchestrator fans packages out over a fixed worker pool and collects
one result per package over a channel.  Its observable behaviour — which
versions of each package are attempted, what each package reports — is a
function of the per-version outcomes alone, because each worker handles
one package at a time, sequentially over its versions, and results are
collected for every queued package; we model that sequential projection
directly. -/

/-- The outcome of one `InsertNewVersionToKV` call as consumed by the
orchestrator: the theoretical SRI/file key counts and the error. -/
structure VersionOutcome where
  sriKeys : Nat
  fileKeys : Nat
  err : Option String
  deriving Repr, DecidableEq

/-- One queued package: its name, whether `GetPackage` succeeds for it,
and its version list. -/
structure PkgData where
  name : String
  getOk : Bool
  versions : List String
  deriving Repr, DecidableEq

/-- Struct `uploadResult` from the orchestrator: the per-package summary sent
over the `done` channel. -/
structure UploadResult where
  name : String
  theoreticalSRIKeys : Nat
  theoreticalFileKeys : Nat
  deriving Repr, DecidableEq

/-- The version loop of a worker in `InsertFromDisk`: versions are
inserted in order, their theoretical key counts accumulated (before the
error check, as in the source), and the loop returns at the first
failing version.  Returns the list of attempted versions, the two
totals and the terminating error. -/
def processVersions (ins : String → String → VersionOutcome) (pkgName : String) :
    List String → Nat → Nat → List String × Nat × Nat × Option String
  | [], sriTotal, fileTotal => ([], sriTotal, fileTotal, none)
  | v :: rest, sriTotal, fileTotal =>
      let o := ins pkgName v
      let sriTotal' := sriTotal + o.sriKeys
      let fileTotal' := fileTotal + o.fileKeys
      match o.err with
      | some e => ([v], sriTotal', fileTotal', some e)
      | none =>
          let (attempted, s, f, err) := processVersions ins pkgName rest sriTotal' fileTotal'
          (v :: attempted, s, f, err)

/-- One worker iteration of `InsertFromDisk` for one package: on a
`GetPackage` failure the package reports immediately (the deferred send
with zero totals); otherwise the versions are processed sequentially and
the accumulated totals reported whether or not a version failed. -/
def processPackage (ins : String → String → VersionOutcome) (p : PkgData) :
    UploadResult × List String × Option String :=
  if ¬ p.getOk then
    ({ name := p.name, theoreticalSRIKeys := 0, theoreticalFileKeys := 0 }, [], some "failed to get package")
  else
    let (attempted, s, f, err) := processVersions ins p.name p.versions 0 0
    ({ name := p.name, theoreticalSRIKeys := s, theoreticalFileKeys := f }, attempted, err)

/-- Function `InsertFromDisk`, sequential projection: every queued package is
processed and reports exactly one result, independently of the other
packages' outcomes. -/
def insertFromDisk (ins : String → String → VersionOutcome)
    (pckgs : List PkgData) : List (UploadResult × List String × Option String) :=
  pckgs.map (processPackage ins)

/-! ## Lemmas about the batching pass -/

/-- All entries currently placed in batches (completed ones plus the one
under construction), in order. -/
def flatBatches (st : BulkState) : List KVPair :=
  (st.bulkWrites ++ [st.bulkWrite]).flatten

theorem flatBatches_addPair (L : Limits) (st : BulkState) (p : KVPair)
    (size : Nat) (name : String) :
    flatBatches (addPair L st p size name) = flatBatches st ++ [p] := by
  simp only [addPair, flatBatches]
  split <;> simp

theorem dropped_addPair (L : Limits) (st : BulkState) (p : KVPair)
    (size : Nat) (name : String) :
    (addPair L st p size name).dropped = st.dropped := by
  simp only [addPair]
  split <;> simp

theorem pushed_addPair (L : Limits) (st : BulkState) (p : KVPair)
    (size : Nat) (name : String) :
    (addPair L st p size name).pushed = st.pushed ++ [name] := by
  simp only [addPair]
  split <;> simp

theorem keep_false_of_big_value {L : Limits} {kv : WriteReq}
    (h : kv.value.length > L.maxFileSize) : keep L kv = false := by
  simp only [keep, Bool.decide_and, Bool.and_eq_false_iff,
    decide_eq_false_iff_not, not_le]
  omega

theorem keep_false_of_big_meta {L : Limits} {kv : WriteReq} {m : FileMetadata}
    (hm : kv.meta = some m) (h : (jsonMarshalMeta m).length > L.maxMetadataSize) :
    keep L kv = false := by
  simp only [keep, Bool.decide_and, Bool.and_eq_false_iff,
    decide_eq_false_iff_not, not_le, metaLen, hm]
  omega

theorem keep_true {L : Limits} {kv : WriteReq}
    (h1 : kv.value.length ≤ L.maxFileSize) (h2 : metaLen kv ≤ L.maxMetadataSize) :
    keep L kv = true := by
  simp [keep, h1, h2]

theorem flatBatches_bulkStep (L : Limits) (st : BulkState) (kv : WriteReq) :
    flatBatches (bulkStep L st kv) =
      flatBatches st ++ (if keep L kv then [toPair kv] else []) := by
  simp only [bulkStep]
  by_cases h1 : kv.value.length > L.maxFileSize
  · have : keep L kv = false := keep_false_of_big_value h1
    simp [h1, this, flatBatches]
  · push_neg at h1
    simp only [if_neg (by omega : ¬ kv.value.length > L.maxFileSize)]
    cases hm : kv.meta with
    | none =>
        have : keep L kv = true := keep_true h1 (by simp [metaLen, hm])
        simp [flatBatches_addPair, this, toPair, hm]
    | some m =>
        by_cases h2 : (jsonMarshalMeta m).length > L.maxMetadataSize
        · have : keep L kv = false := keep_false_of_big_meta hm h2
          simp [h2, this, flatBatches]
        · push_neg at h2
          have : keep L kv = true := keep_true h1 (by simpa [metaLen, hm] using h2)
          simp only [if_neg (by omega : ¬ (jsonMarshalMeta m).length > L.maxMetadataSize)]
          simp [flatBatches_addPair, this, toPair, hm]

theorem dropped_bulkStep (L : Limits) (st : BulkState) (kv : WriteReq) :
    (bulkStep L st kv).dropped =
      st.dropped ++ (if keep L kv then [] else [diagOf L kv]) := by
  simp only [bulkStep]
  by_cases h1 : kv.value.length > L.maxFileSize
  · have hk : keep L kv = false := keep_false_of_big_value h1
    simp [h1, hk, diagOf]
  · push_neg at h1
    simp only [if_neg (by omega : ¬ kv.value.length > L.maxFileSize)]
    cases hm : kv.meta with
    | none =>
        have : keep L kv = true := keep_true h1 (by simp [metaLen, hm])
        simp [dropped_addPair, this]
    | some m =>
        by_cases h2 : (jsonMarshalMeta m).length > L.maxMetadataSize
        · have hk : keep L kv = false := keep_false_of_big_meta hm h2
          simp [h2, hk, diagOf, metaLen, hm,
            if_neg (by omega : ¬ kv.value.length > L.maxFileSize)]
        · push_neg at h2
          have : keep L kv = true := keep_true h1 (by simpa [metaLen, hm] using h2)
          simp only [if_neg (by omega : ¬ (jsonMarshalMeta m).length > L.maxMetadataSize)]
          simp [dropped_addPair, this]

theorem pushed_bulkStep (L : Limits) (st : BulkState) (kv : WriteReq) :
    (bulkStep L st kv).pushed =
      st.pushed ++ (if keep L kv then [kv.name] else []) := by
  simp only [bulkStep]
  by_cases h1 : kv.value.length > L.maxFileSize
  · have hk : keep L kv = false := keep_false_of_big_value h1
    simp [h1, hk]
  · push_neg at h1
    simp only [if_neg (by omega : ¬ kv.value.length > L.maxFileSize)]
    cases hm : kv.meta with
    | none =>
        have : keep L kv = true := keep_true h1 (by simp [metaLen, hm])
        simp [pushed_addPair, this]
    | some m =>
        by_cases h2 : (jsonMarshalMeta m).length > L.maxMetadataSize
        · have hk : keep L kv = false := keep_false_of_big_meta hm h2
          simp [h2, hk]
        · push_neg at h2
          have : keep L kv = true := keep_true h1 (by simpa [metaLen, hm] using h2)
          simp only [if_neg (by omega : ¬ (jsonMarshalMeta m).length > L.maxMetadataSize)]
          simp [pushed_addPair, this]

theorem flatBatches_foldl (L : Limits) :
    ∀ (kvs : List WriteReq) (st : BulkState),
      flatBatches (kvs.foldl (bulkStep L) st) =
        flatBatches st ++ (kvs.filter (keep L)).map toPair
  | [], st => by simp
  | kv :: rest, st => by
      simp only [List.foldl_cons, flatBatches_foldl L rest (bulkStep L st kv),
        flatBatches_bulkStep, List.filter_cons]
      by_cases h : keep L kv <;> simp [h]

theorem dropped_foldl (L : Limits) :
    ∀ (kvs : List WriteReq) (st : BulkState),
      (kvs.foldl (bulkStep L) st).dropped =
        st.dropped ++ (kvs.filter (fun kv => ¬ keep L kv)).map (diagOf L)
  | [], st => by simp
  | kv :: rest, st => by
      simp only [List.foldl_cons, dropped_foldl L rest (bulkStep L st kv),
        dropped_bulkStep, List.filter_cons]
      by_cases h : keep L kv <;> simp [h]

theorem pushed_foldl (L : Limits) :
    ∀ (kvs : List WriteReq) (st : BulkState),
      (kvs.foldl (bulkStep L) st).pushed =
        st.pushed ++ (kvs.filter (keep L)).map WriteReq.name
  | [], st => by simp
  | kv :: rest, st => by
      simp only [List.foldl_cons, pushed_foldl L rest (bulkStep L st kv),
        pushed_bulkStep, List.filter_cons]
      by_cases h : keep L kv <;> simp [h]

/-- The entries appearing across all produced batches are exactly the
accepted requests, base64-encoded, in input order. -/
theorem buildBulks_flatten (L : Limits) (kvs : List WriteReq) :
    (buildBulks L kvs).1.flatten = (kvs.filter (keep L)).map toPair := by
  have h := flatBatches_foldl L kvs initState
  simpa [buildBulks, flatBatches, initState] using h

/-- The recorded diagnostics are exactly one per dropped request, in
input order. -/
theorem buildBulks_dropped (L : Limits) (kvs : List WriteReq) :
    (buildBulks L kvs).2.1 = (kvs.filter (fun kv => ¬ keep L kv)).map (diagOf L) := by
  have h := dropped_foldl L kvs initState
  simpa [buildBulks, initState] using h

/-- The accepted names are exactly the names of kept requests, in input
order. -/
theorem buildBulks_pushed (L : Limits) (kvs : List WriteReq) :
    (buildBulks L kvs).2.2 = (kvs.filter (keep L)).map WriteReq.name := by
  have h := pushed_foldl L kvs initState
  simpa [buildBulks, initState] using h

/-! ## The size/count invariant of the batching pass -/

/-- A batch honouring both backend caps. -/
def goodBatch (L : Limits) (b : List KVPair) : Prop :=
  batchSize b ≤ L.maxBulkWritePayload ∧ b.length ≤ L.maxBulkKeys

/-- Caps compatible with each other: a single accepted entry (raw value
at most `maxFileSize`, hence encoded value at most
`4 * ⌈maxFileSize / 3⌉`, metadata at most `maxMetadataSize`) always fits
a fresh batch, and a batch may hold at least one key.  (The production
configuration — 25 MiB files, 1 KiB metadata, 98 MiB payloads, 10000
keys — satisfies this comfortably.) -/
def capsCompatible (L : Limits) : Prop :=
  4 * ((L.maxFileSize + 2) / 3) + L.maxMetadataSize ≤ L.maxBulkWritePayload ∧
    1 ≤ L.maxBulkKeys

/-- Loop invariant of the batching pass: the running counters describe
the batch under construction, which is within caps, and every completed
batch is within caps. -/
def InvState (L : Limits) (st : BulkState) : Prop :=
  st.totalSize = batchSize st.bulkWrite ∧
  st.totalKeys = st.bulkWrite.length ∧
  batchSize st.bulkWrite ≤ L.maxBulkWritePayload ∧
  st.bulkWrite.length ≤ L.maxBulkKeys ∧
  ∀ b ∈ st.bulkWrites, goodBatch L b

theorem batchSize_append_singleton (b : List KVPair) (p : KVPair) :
    batchSize (b ++ [p]) = batchSize b + pairSize p := by
  simp [batchSize]

theorem addPair_inv {L : Limits} {st : BulkState} {p : KVPair} {size : Nat}
    {name : String} (hinv : InvState L st) (hsz : size = pairSize p)
    (hcap : size ≤ L.maxBulkWritePayload) (hkey : 1 ≤ L.maxBulkKeys) :
    InvState L (addPair L st p size name) := by
  obtain ⟨h1, h2, h3, h4, h5⟩ := hinv
  simp only [addPair]
  split
  · refine ⟨?_, ?_, ?_, ?_, ?_⟩
    · simp [batchSize_append_singleton, batchSize, hsz]
    · simp
    · simpa [batchSize_append_singleton, batchSize, hsz] using hcap
    · simpa using hkey
    · intro b hb
      simp only [List.mem_append, List.mem_singleton] at hb
      rcases hb with hb | hb
      · exact h5 b hb
      · subst hb
        exact ⟨h3, h4⟩
  · rename_i hcond
    push_neg at hcond
    refine ⟨?_, ?_, ?_, ?_, ?_⟩
    · simp [batchSize_append_singleton, h1, hsz]
    · simp [h2]
    · simp only [batchSize_append_singleton]
      omega
    · simp only [List.length_append, List.length_singleton]
      omega
    · exact h5

theorem bulkStep_inv {L : Limits} {st : BulkState} (kv : WriteReq)
    (hcompat : capsCompatible L) (hinv : InvState L st) :
    InvState L (bulkStep L st kv) := by
  obtain ⟨hcap, hkey⟩ := hcompat
  simp only [bulkStep]
  by_cases h1 : kv.value.length > L.maxFileSize
  · simp only [if_pos h1]
    exact hinv
  · push_neg at h1
    simp only [if_neg (by omega : ¬ kv.value.length > L.maxFileSize)]
    have hb64 : (encodeToBase64 kv.value).length ≤ 4 * ((L.maxFileSize + 2) / 3) := by
      rw [encodeToBase64_length]
      have := Nat.div_le_div_right (c := 3) (by omega : kv.value.length + 2 ≤ L.maxFileSize + 2)
      omega
    cases hm : kv.meta with
    | none =>
        apply addPair_inv hinv
        · simp [pairSize]
        · omega
        · exact hkey
    | some m =>
        by_cases h2 : (jsonMarshalMeta m).length > L.maxMetadataSize
        · simp only [if_pos h2]
          exact hinv
        · push_neg at h2
          simp only [if_neg (by omega : ¬ (jsonMarshalMeta m).length > L.maxMetadataSize)]
          apply addPair_inv hinv
          · simp [pairSize]
          · omega
          · exact hkey

theorem foldl_inv (L : Limits) (hcompat : capsCompatible L) :
    ∀ (kvs : List WriteReq) (st : BulkState), InvState L st →
      InvState L (kvs.foldl (bulkStep L) st)
  | [], st, hinv => hinv
  | kv :: rest, st, hinv =>
      foldl_inv L hcompat rest (bulkStep L st kv) (bulkStep_inv kv hcompat hinv)

theorem initState_inv (L : Limits) : InvState L initState := by
  refine ⟨rfl, rfl, ?_, ?_, ?_⟩ <;> simp [initState, batchSize]

/-- Every batch produced by the batching pass honours both caps. -/
theorem buildBulks_goodBatches (L : Limits) (hcompat : capsCompatible L)
    (kvs : List WriteReq) :
    ∀ b ∈ (buildBulks L kvs).1, goodBatch L b := by
  have hinv := foldl_inv L hcompat kvs initState (initState_inv L)
  obtain ⟨_, _, h3, h4, h5⟩ := hinv
  intro b hb
  simp only [buildBulks, List.mem_append, List.mem_singleton] at hb
  rcases hb with hb | hb
  · exact h5 b hb
  · subst hb
    exact ⟨h3, h4⟩

/-! ## Lemmas about the write loop -/

theorem writeBulks_log_ns (respond : Backend) (ns : String) :
    ∀ (bs : List (List KVPair)) (log : List BulkCall),
      ∀ c ∈ (writeBulks respond ns bs log).1, c ∈ log ∨ c.ns = ns
  | [], log => by
      intro c hc
      simp only [writeBulks] at hc
      exact Or.inl hc
  | b :: rest, log => by
      intro c hc
      simp only [writeBulks] at hc
      rcases hrb : respond ns b with ⟨r, e⟩
      rw [hrb] at hc
      cases hcs : checkSuccess r e with
      | none =>
          rw [hcs] at hc
          have := writeBulks_log_ns respond ns rest (log ++ [⟨ns, b⟩]) c hc
          rcases this with h | h
          · simp only [List.mem_append, List.mem_singleton] at h
            rcases h with h | h
            · exact Or.inl h
            · subst h
              exact Or.inr rfl
          · exact Or.inr h
      | some msg =>
          rw [hcs] at hc
          simp only [List.mem_append, List.mem_singleton] at hc
          rcases hc with h | h
          · exact Or.inl h
          · subst h
            exact Or.inr rfl

theorem writeBulks_err_none_iff (respond : Backend) (ns : String) :
    ∀ (bs : List (List KVPair)) (log : List BulkCall),
      (writeBulks respond ns bs log).2 = none ↔
        ∀ b ∈ bs, checkSuccess (respond ns b).1 (respond ns b).2 = none
  | [], log => by simp [writeBulks]
  | b :: rest, log => by
      simp only [writeBulks]
      rcases hrb : respond ns b with ⟨r, e⟩
      cases hcs : checkSuccess r e with
      | none =>
          simp only [writeBulks_err_none_iff respond ns rest (log ++ [⟨ns, b⟩])]
          constructor
          · intro h x hx
            simp only [List.mem_cons] at hx
            rcases hx with hx | hx
            · subst hx
              simp [hrb, hcs]
            · exact h x hx
          · intro h x hx
            exact h x (by simp [hx])
      | some msg =>
          simp only []
          constructor
          · intro h
            exact absurd h (by simp)
          · intro h
            have := h b (by simp)
            rw [hrb] at this
            simp only at this
            rw [hcs] at this
            exact absurd this (by simp)

theorem writeBulks_log_of_ok (respond : Backend) (ns : String) :
    ∀ (bs : List (List KVPair)) (log : List BulkCall),
      (∀ b ∈ bs, checkSuccess (respond ns b).1 (respond ns b).2 = none) →
      (writeBulks respond ns bs log).1 = log ++ bs.map (fun b => ⟨ns, b⟩)
  | [], log, _ => by simp [writeBulks]
  | b :: rest, log, h => by
      have hb := h b (by simp)
      simp only [writeBulks]
      rcases hrb : respond ns b with ⟨r, e⟩
      rw [hrb] at hb
      simp only at hb
      simp only [hb]
      have ih := writeBulks_log_of_ok respond ns rest (log ++ [⟨ns, b⟩])
        (fun x hx => h x (List.mem_cons_of_mem _ hx))
      rw [ih]
      simp

/-! ## Lemmas about the orchestrator's version loop -/

/-- If the first `j` versions insert cleanly and version `j` fails, the
loop attempts exactly the first `j + 1` versions and stops with the
failing version's error, the totals having accumulated over every
attempted version. -/
theorem processVersions_fail (ins : String → String → VersionOutcome)
    (n : String) (e : String) :
    ∀ (vs : List String) (j : Nat) (s0 f0 : Nat) (hj : j < vs.length)
      (hok : ∀ k (hk : k < j), (ins n (vs.get ⟨k, by omega⟩)).err = none)
      (hfail : (ins n (vs.get ⟨j, by omega⟩)).err = some e),
      processVersions ins n vs s0 f0 =
        (vs.take (j + 1),
         s0 + ((vs.take (j + 1)).map (fun v => (ins n v).sriKeys)).sum,
         f0 + ((vs.take (j + 1)).map (fun v => (ins n v).fileKeys)).sum,
         some e)
  | [], j, s0, f0, hj, _, _ => by simp at hj
  | v :: rest, 0, s0, f0, hj, hok, hfail => by
      simp only [List.get] at hfail
      simp only [processVersions, hfail, List.take_succ_cons, List.take_zero,
        List.map_cons, List.map_nil, List.sum_cons, List.sum_nil, Prod.mk.injEq]
      refine ⟨by simp, by omega, by omega, by simp⟩
  | v :: rest, j + 1, s0, f0, hj, hok, hfail => by
      have hv : (ins n v).err = none := hok 0 (by omega)
      simp only [List.get] at hfail
      have ih := processVersions_fail ins n e rest j
        (s0 + (ins n v).sriKeys) (f0 + (ins n v).fileKeys)
        (by simpa using hj)
        (fun k hk => hok (k + 1) (by omega))
        hfail
      simp only [processVersions, hv, ih, List.take_succ_cons, List.map_cons,
        List.sum_cons, Prod.mk.injEq]
      refine ⟨by simp, by omega, by omega, by simp⟩

/-! ## Key-shape lemmas for the file write requests -/

theorem goodPath_append {a b : String} (ha : goodPath a) (hb : goodPath b) :
    goodPath (a ++ "/" ++ b) := by
  have hagood : ∀ e ∈ splitSlash a.data, goodElem e := by
    simpa [goodPath, List.all_eq_true] using ha
  have hbgood : ∀ e ∈ splitSlash b.data, goodElem e := by
    simpa [goodPath, List.all_eq_true] using hb
  have hcat : (a ++ "/" ++ b).data = a.data ++ '/' :: b.data := by
    simp [String.data_append]
  simp only [goodPath, hcat, splitSlash_append, List.all_append,
    Bool.and_eq_true, List.all_eq_true]
  exact ⟨fun e he => hagood e he, fun e he => hbgood e he⟩

theorem join_data (base p : String) :
    (base ++ "/" ++ p).data = base.data ++ '/' :: p.data := by
  simp [String.data_append]

/-- Keys under the same base directory are equal exactly when the
relative paths are. -/
theorem join_inj {base p q : String} :
    base ++ "/" ++ q = base ++ "/" ++ p ↔ q = p := by
  constructor
  · intro h
    have hd := congrArg String.data h
    rw [join_data, join_data] at hd
    have := (List.append_right_inj base.data).mp hd
    have := List.cons_injective this
    exact String.ext this
  · intro h
    rw [h]

/-- Appending the same suffix preserves and reflects key equality. -/
theorem suffix_inj (s : String) {a b : String} : a ++ s = b ++ s ↔ a = b := by
  constructor
  · intro h
    have hd := congrArg String.data h
    simp only [String.data_append] at hd
    exact String.ext ((List.append_left_inj s.data).mp hd)
  · intro h
    rw [h]

/-- A `.br`-suffixed key is never a `.gz`-suffixed key. -/
theorem br_ne_gz {a b : String} : a ++ ".br" ≠ b ++ ".gz" := by
  intro h
  have hd := congrArg (fun s => s.data.reverse) h
  simp only [String.data_append, List.reverse_append] at hd
  have : (".br" : String).data.reverse = ['r', 'b', '.'] := rfl
  rw [this] at hd
  have : (".gz" : String).data.reverse = ['z', 'g', '.'] := rfl
  rw [this] at hd
  simp at hd

theorem pathExt_of_br_suffix {q : String} {t : List Char}
    (h : q.data = t ++ ['.', 'b', 'r']) : pathExt q = ".br" := by
  apply String.ext
  simp [pathExt, h, List.reverse_append, pathExtAux]

theorem pathExt_of_gz_suffix {q : String} {t : List Char}
    (h : q.data = t ++ ['.', 'g', 'z']) : pathExt q = ".gz" := by
  apply String.ext
  simp [pathExt, h, List.reverse_append, pathExtAux]

/-- If a plain key under `base` coincides with a `.br`-suffixed key
under `base`, the plain path itself ends in `.br` (and is therefore of
the ignored class). -/
theorem ext_br_of_join_eq {base p q : String}
    (h : base ++ "/" ++ q = (base ++ "/" ++ p) ++ ".br") : pathExt q = ".br" := by
  have hd := congrArg String.data h
  simp only [String.data_append, List.append_assoc] at hd
  have h1 := (List.append_right_inj base.data).mp hd
  have h2 := (List.append_right_inj _).mp h1
  exact pathExt_of_br_suffix h2

/-- Analogue of `ext_br_of_join_eq` for the `.gz` suffix. -/
theorem ext_gz_of_join_eq {base p q : String}
    (h : base ++ "/" ++ q = (base ++ "/" ++ p) ++ ".gz") : pathExt q = ".gz" := by
  have hd := congrArg String.data h
  simp only [String.data_append, List.append_assoc] at hd
  have h1 := (List.append_right_inj base.data).mp hd
  have h2 := (List.append_right_inj _).mp h1
  exact pathExt_of_gz_suffix h2

theorem filter_flatMap_nil {g : FileInfo → List WriteReq} {P : WriteReq → Bool}
    {l : List FileInfo} (h : ∀ f ∈ l, ∀ r ∈ g f, ¬ P r) :
    (l.flatMap g).filter P = [] := by
  apply List.filter_eq_nil_iff.mpr
  intro r hr
  obtain ⟨f, hf, hrf⟩ := List.mem_flatMap.mp hr
  exact h f hf r hrf

/-- When at most the distinguished file can contribute matching
requests, filtering the accumulated request list reduces to filtering
that file's own requests. -/
theorem filter_flatMap_single :
    ∀ (l : List FileInfo) (f0 : FileInfo), f0 ∈ l →
      (l.map FileInfo.path).Nodup →
      ∀ (g : FileInfo → List WriteReq) (P : WriteReq → Bool),
      (∀ f ∈ l, f.path ≠ f0.path → ∀ r ∈ g f, ¬ P r) →
      (l.flatMap g).filter P = (g f0).filter P
  | [], f0, hf0, _, _, _, _ => absurd hf0 (List.not_mem_nil f0)
  | f :: rest, f0, hf0, hnodup, g, P, hothers => by
      simp only [List.map_cons, List.nodup_cons] at hnodup
      simp only [List.flatMap_cons, List.filter_append]
      rcases List.mem_cons.mp hf0 with h | h
      · subst h
        have hrest : ∀ x ∈ rest, ∀ r ∈ g x, ¬ P r := by
          intro x hx r hr
          apply hothers x (List.mem_cons_of_mem _ hx) _ r hr
          intro hpath
          exact hnodup.1 (hpath ▸ List.mem_map_of_mem FileInfo.path hx)
        rw [filter_flatMap_nil hrest, List.append_nil]
      · have hne : f.path ≠ f0.path := by
          intro hpath
          exact hnodup.1 (hpath ▸ List.mem_map_of_mem FileInfo.path h)
        have hf : ∀ r ∈ g f, ¬ P r := hothers f (List.mem_cons_self f rest) hne
        rw [List.filter_eq_nil_iff.mpr hf, List.nil_append]
        exact filter_flatMap_single rest f0 h hnodup.2 g P
          (fun x hx hne r hr => hothers x (List.mem_cons_of_mem _ hx) hne r hr)

/-- Shape of the keys a single file can put into the request list. -/
theorem key_of_perFile {br gz : List Nat → List Nat} {base : String}
    {f : FileInfo} {r : WriteReq} (hr : r ∈ perFileRequests br gz base f) :
    isIgnoredExt (pathExt f.path) = false ∧
      ((isDoNotCompressExt (pathExt f.path) = true ∧
          r.key = pathJoin base f.path) ∨
       (isDoNotCompressExt (pathExt f.path) = false ∧
          (r.key = pathJoin base f.path ++ ".br" ∨
           r.key = pathJoin base f.path ++ ".gz"))) := by
  by_cases hig : isIgnoredExt (pathExt f.path)
  · simp [perFileRequests, hig] at hr
  · have hig' : isIgnoredExt (pathExt f.path) = false := by
      simp [hig]
    by_cases hdnc : isDoNotCompressExt (pathExt f.path)
    · simp [perFileRequests, hig', hdnc] at hr
      exact ⟨hig', Or.inl ⟨hdnc, by rw [hr]⟩⟩
    · have hdnc' : isDoNotCompressExt (pathExt f.path) = false := by
        simp [hdnc]
      simp [perFileRequests, hig', hdnc'] at hr
      rcases hr with hr | hr
      · exact ⟨hig', Or.inr ⟨hdnc', Or.inl (by rw [hr])⟩⟩
      · exact ⟨hig', Or.inr ⟨hdnc', Or.inr (by rw [hr])⟩⟩

/-- A do-not-compress extension is never an ignored extension. -/
theorem dnc_not_ignored {e : String} (h : isDoNotCompressExt e = true) :
    isIgnoredExt e = false := by
  simp only [isDoNotCompressExt, decide_eq_true_eq] at h
  subst h
  decide

/-- Keys of the nested join, rewritten to plain concatenation on good
paths. -/
theorem joinKey_good {pkg version p : String} (hpkg : goodPath pkg)
    (hver : goodPath version) (hp : goodPath p) :
    pathJoin (pathJoin pkg version) p = (pkg ++ "/" ++ version) ++ "/" ++ p := by
  rw [pathJoin_of_good hpkg hver, pathJoin_of_good (goodPath_append hpkg hver) hp]

/-- C5: for every default-class source file, the builder emits exactly
one `.br`-keyed request (brotli bytes) and one `.gz`-keyed request
(gzip bytes), and no request at all under the original unsuffixed
key. -/
theorem default_class_two_suffixed_requests
    (br gz : List Nat → List Nat) (pkg version : String)
    (files : List FileInfo) (f0 : FileInfo)
    (hpkg : goodPath pkg) (hver : goodPath version)
    (hgood : ∀ f ∈ files, goodPath f.path)
    (hnodup : (files.map FileInfo.path).Nodup)
    (hf0 : f0 ∈ files)
    (hig : ¬ isIgnoredExt (pathExt f0.path) = true)
    (hdnc : ¬ isDoNotCompressExt (pathExt f0.path) = true) :
    (perFileRequests br gz (pathJoin pkg version) f0 =
      [{ key := pathJoin (pathJoin pkg version) f0.path ++ ".br",
         name := f0.path ++ ".br", value := br f0.content,
         meta := some (metaOf f0) },
       { key := pathJoin (pathJoin pkg version) f0.path ++ ".gz",
         name := f0.path ++ ".gz", value := gz f0.content,
         meta := some (metaOf f0) }]) ∧
    ((getFileWriteRequests br gz pkg version files).filter
        (fun r => r.key == pathJoin (pathJoin pkg version) f0.path ++ ".br") =
      [{ key := pathJoin (pathJoin pkg version) f0.path ++ ".br",
         name := f0.path ++ ".br", value := br f0.content,
         meta := some (metaOf f0) }]) ∧
    ((getFileWriteRequests br gz pkg version files).filter
        (fun r => r.key == pathJoin (pathJoin pkg version) f0.path ++ ".gz") =
      [{ key := pathJoin (pathJoin pkg version) f0.path ++ ".gz",
         name := f0.path ++ ".gz", value := gz f0.content,
         meta := some (metaOf f0) }]) ∧
    ((getFileWriteRequests br gz pkg version files).filter
        (fun r => r.key == pathJoin (pathJoin pkg version) f0.path) = []) := by
  have hg0 : goodPath f0.path := hgood f0 hf0
  have hj0 : pathJoin (pathJoin pkg version) f0.path =
      (pkg ++ "/" ++ version) ++ "/" ++ f0.path := joinKey_good hpkg hver hg0
  have hig0' : isIgnoredExt (pathExt f0.path) = false := by simp [hig]
  have hdnc0' : isDoNotCompressExt (pathExt f0.path) = false := by simp [hdnc]
  refine ⟨?_, ?_, ?_, ?_⟩
  · -- exactly the two compressed requests are produced for this file
    simp [perFileRequests, hig0', hdnc0']
  · -- the .br key appears exactly once, carrying the brotli bytes
    have hothers : ∀ f ∈ files, f.path ≠ f0.path →
        ∀ r ∈ perFileRequests br gz (pathJoin pkg version) f,
          ¬ (r.key == pathJoin (pathJoin pkg version) f0.path ++ ".br") = true := by
      intro f hf hne r hr
      obtain ⟨hig_f, hcase⟩ := key_of_perFile hr
      have hjf : pathJoin (pathJoin pkg version) f.path =
          (pkg ++ "/" ++ version) ++ "/" ++ f.path :=
        joinKey_good hpkg hver (hgood f hf)
      simp only [beq_iff_eq]
      intro hkey
      rcases hcase with ⟨_, hkeyeq⟩ | ⟨_, hkeyeq | hkeyeq⟩
      · rw [hkeyeq, hjf, hj0] at hkey
        have hext := ext_br_of_join_eq hkey
        rw [hext] at hig_f
        simp [isIgnoredExt] at hig_f
      · rw [hkeyeq, hjf, hj0] at hkey
        exact hne (join_inj.mp ((suffix_inj ".br").mp hkey))
      · rw [hkeyeq, hjf, hj0] at hkey
        exact br_ne_gz hkey.symm
    have hmain := filter_flatMap_single files f0 hf0 hnodup
      (perFileRequests br gz (pathJoin pkg version))
      (fun r => r.key == pathJoin (pathJoin pkg version) f0.path ++ ".br") hothers
    simp only [getFileWriteRequests, hmain]
    have hgzne : (pathJoin (pathJoin pkg version) f0.path ++ ".gz" ==
        pathJoin (pathJoin pkg version) f0.path ++ ".br") = false := by
      simp only [beq_eq_false_iff_ne, ne_eq]
      intro h
      exact br_ne_gz h.symm
    simp [perFileRequests, hig0', hdnc0', List.filter, hgzne]
  · -- the .gz key appears exactly once, carrying the gzip bytes
    have hothers : ∀ f ∈ files, f.path ≠ f0.path →
        ∀ r ∈ perFileRequests br gz (pathJoin pkg version) f,
          ¬ (r.key == pathJoin (pathJoin pkg version) f0.path ++ ".gz") = true := by
      intro f hf hne r hr
      obtain ⟨hig_f, hcase⟩ := key_of_perFile hr
      have hjf : pathJoin (pathJoin pkg version) f.path =
          (pkg ++ "/" ++ version) ++ "/" ++ f.path :=
        joinKey_good hpkg hver (hgood f hf)
      simp only [beq_iff_eq]
      intro hkey
      rcases hcase with ⟨_, hkeyeq⟩ | ⟨_, hkeyeq | hkeyeq⟩
      · rw [hkeyeq, hjf, hj0] at hkey
        have hext := ext_gz_of_join_eq hkey
        rw [hext] at hig_f
        simp [isIgnoredExt] at hig_f
      · rw [hkeyeq, hjf, hj0] at hkey
        exact br_ne_gz hkey
      · rw [hkeyeq, hjf, hj0] at hkey
        exact hne (join_inj.mp ((suffix_inj ".gz").mp hkey))
    have hmain := filter_flatMap_single files f0 hf0 hnodup
      (perFileRequests br gz (pathJoin pkg version))
      (fun r => r.key == pathJoin (pathJoin pkg version) f0.path ++ ".gz") hothers
    simp only [getFileWriteRequests, hmain]
    have hbrne : (pathJoin (pathJoin pkg version) f0.path ++ ".br" ==
        pathJoin (pathJoin pkg version) f0.path ++ ".gz") = false := by
      simp only [beq_eq_false_iff_ne, ne_eq]
      exact br_ne_gz
    simp [perFileRequests, hig0', hdnc0', List.filter, hbrne]
  · -- the unsuffixed key never appears
    apply filter_flatMap_nil
    intro f hf r hr
    obtain ⟨hig_f, hcase⟩ := key_of_perFile hr
    have hjf : pathJoin (pathJoin pkg version) f.path =
        (pkg ++ "/" ++ version) ++ "/" ++ f.path :=
      joinKey_good hpkg hver (hgood f hf)
    simp only [beq_iff_eq]
    intro hkey
    rcases hcase with ⟨hdnc_f, hkeyeq⟩ | ⟨_, hkeyeq | hkeyeq⟩
    · rw [hkeyeq, hjf, hj0] at hkey
      have hpp := join_inj.mp hkey
      rw [hpp] at hdnc_f
      rw [hdnc_f] at hdnc0'
      cases hdnc0'
    · rw [hkeyeq, hjf, hj0] at hkey
      have hext := ext_br_of_join_eq hkey.symm
      rw [hext] at hig0'
      simp [isIgnoredExt] at hig0'
    · rw [hkeyeq, hjf, hj0] at hkey
      have hext := ext_gz_of_join_eq hkey.symm
      rw [hext] at hig0'
      simp [isIgnoredExt] at hig0'

/-- C6: for every do-not-compress (`.woff2`) source file, the builder
emits exactly one request, keyed by the original (unsuffixed) filename
and carrying the uncompressed bytes, and no other file contributes a
request under that key. -/
theorem dnc_class_single_uncompressed_request
    (br gz : List Nat → List Nat) (pkg version : String)
    (files : List FileInfo) (f0 : FileInfo)
    (hpkg : goodPath pkg) (hver : goodPath version)
    (hgood : ∀ f ∈ files, goodPath f.path)
    (hnodup : (files.map FileInfo.path).Nodup)
    (hf0 : f0 ∈ files)
    (hdnc : isDoNotCompressExt (pathExt f0.path) = true) :
    (perFileRequests br gz (pathJoin pkg version) f0 =
      [{ key := pathJoin (pathJoin pkg version) f0.path, name := f0.path,
         value := f0.content, meta := some (metaOf f0) }]) ∧
    ((getFileWriteRequests br gz pkg version files).filter
        (fun r => r.key == pathJoin (pathJoin pkg version) f0.path) =
      [{ key := pathJoin (pathJoin pkg version) f0.path, name := f0.path,
         value := f0.content, meta := some (metaOf f0) }]) := by
  have hg0 : goodPath f0.path := hgood f0 hf0
  have hj0 : pathJoin (pathJoin pkg version) f0.path =
      (pkg ++ "/" ++ version) ++ "/" ++ f0.path := joinKey_good hpkg hver hg0
  have hig0' : isIgnoredExt (pathExt f0.path) = false := dnc_not_ignored hdnc
  refine ⟨?_, ?_⟩
  · simp [perFileRequests, hig0', hdnc]
  · have hothers : ∀ f ∈ files, f.path ≠ f0.path →
        ∀ r ∈ perFileRequests br gz (pathJoin pkg version) f,
          ¬ (r.key == pathJoin (pathJoin pkg version) f0.path) = true := by
      intro f hf hne r hr
      obtain ⟨hig_f, hcase⟩ := key_of_perFile hr
      have hjf : pathJoin (pathJoin pkg version) f.path =
          (pkg ++ "/" ++ version) ++ "/" ++ f.path :=
        joinKey_good hpkg hver (hgood f hf)
      simp only [beq_iff_eq]
      intro hkey
      rcases hcase with ⟨_, hkeyeq⟩ | ⟨_, hkeyeq | hkeyeq⟩
      · rw [hkeyeq, hjf, hj0] at hkey
        exact hne (join_inj.mp hkey)
      · rw [hkeyeq, hjf, hj0] at hkey
        have hext := ext_br_of_join_eq hkey.symm
        rw [hext] at hdnc
        simp [isDoNotCompressExt] at hdnc
      · rw [hkeyeq, hjf, hj0] at hkey
        have hext := ext_gz_of_join_eq hkey.symm
        rw [hext] at hdnc
        simp [isDoNotCompressExt] at hdnc
    have hmain := filter_flatMap_single files f0 hf0 hnodup
      (perFileRequests br gz (pathJoin pkg version))
      (fun r => r.key == pathJoin (pathJoin pkg version) f0.path) hothers
    simp only [getFileWriteRequests, hmain]
    simp [perFileRequests, hig0', hdnc, List.filter]

/-! ## Concrete sample data for witnesses -/

/-- A sample brotli compressor stub used only to instantiate theorems on
concrete inputs. -/
def sampleBr (v : List Nat) : List Nat := 0 :: v

/-- A sample gzip compressor stub used only to instantiate theorems on
concrete inputs. -/
def sampleGz (v : List Nat) : List Nat := 1 :: v

/-- A sample default-class source file. -/
def sampleJs : FileInfo :=
  { path := "a.js", content := [104, 105], modSeconds := 3, size := 2,
    lastModifiedStr := "t" }

/-- A sample do-not-compress source file. -/
def sampleWoff : FileInfo :=
  { path := "logo.woff2", content := [7], modSeconds := 3, size := 1,
    lastModifiedStr := "t" }

/-- Sample version directory listing. -/
def sampleFiles : List FileInfo := [sampleJs, sampleWoff]

theorem default_class_two_suffixed_requests_witness :
    goodPath "a.js" = true ∧
    ((getFileWriteRequests sampleBr sampleGz "p" "1.0.0" sampleFiles).filter
        (fun r => r.key == pathJoin (pathJoin "p" "1.0.0") "a.js" ++ ".br")).length = 1 :=
  ⟨by decide, by
    have h := (default_class_two_suffixed_requests sampleBr sampleGz "p" "1.0.0"
      sampleFiles sampleJs (by decide) (by decide) (by decide) (by decide)
      (by decide) (by decide) (by decide)).2.1
    exact congrArg List.length h⟩

theorem dnc_class_single_uncompressed_request_witness :
    goodPath "logo.woff2" = true ∧
    ((getFileWriteRequests sampleBr sampleGz "p" "1.0.0" sampleFiles).filter
        (fun r => r.key == pathJoin (pathJoin "p" "1.0.0") "logo.woff2")).length = 1 :=
  ⟨by decide, by
    have h := (dnc_class_single_uncompressed_request sampleBr sampleGz "p" "1.0.0"
      sampleFiles sampleWoff (by decide) (by decide) (by decide) (by decide)
      (by decide) (by decide)).2
    exact congrArg List.length h⟩

/-! ## Auxiliary lemmas for the remaining claims -/

theorem bulkStep_not_keep (L : Limits) (st : BulkState) (kv : WriteReq)
    (h : ¬ keep L kv = true) :
    (bulkStep L st kv).bulkWrites = st.bulkWrites ∧
      (bulkStep L st kv).bulkWrite = st.bulkWrite := by
  simp only [bulkStep]
  by_cases h1 : kv.value.length > L.maxFileSize
  · simp [h1]
  · push_neg at h1
    simp only [if_neg (by omega : ¬ kv.value.length > L.maxFileSize)]
    cases hm : kv.meta with
    | none => exact absurd (keep_true h1 (by simp [metaLen, hm])) h
    | some m =>
        by_cases h2 : (jsonMarshalMeta m).length > L.maxMetadataSize
        · simp [h2]
        · push_neg at h2
          exact absurd (keep_true h1 (by simpa [metaLen, hm] using h2)) h

theorem foldl_all_dropped (L : Limits) :
    ∀ (kvs : List WriteReq) (st : BulkState),
      (∀ kv ∈ kvs, ¬ keep L kv = true) →
      (kvs.foldl (bulkStep L) st).bulkWrites = st.bulkWrites ∧
        (kvs.foldl (bulkStep L) st).bulkWrite = st.bulkWrite
  | [], st, _ => ⟨rfl, rfl⟩
  | kv :: rest, st, h => by
      have hstep := bulkStep_not_keep L st kv (h kv (List.mem_cons_self kv rest))
      have ih := foldl_all_dropped L rest (bulkStep L st kv)
        (fun x hx => h x (List.mem_cons_of_mem _ hx))
      simp only [List.foldl_cons]
      exact ⟨ih.1.trans hstep.1, ih.2.trans hstep.2⟩

/-- Every call issued by `encodeAndWriteKVBulk` targets its namespace
argument. -/
theorem encodeAndWriteKVBulk_log_ns (respond : Backend) (L : Limits)
    (kvs : List WriteReq) (ns : String) :
    ∀ c ∈ (encodeAndWriteKVBulk respond L kvs ns).1, c.ns = ns := by
  intro c hc
  rcases hb : buildBulks L kvs with ⟨batches, dropped2, pushed⟩
  rcases hw : writeBulks respond ns batches [] with ⟨log, err⟩
  simp only [encodeAndWriteKVBulk, hb, hw] at hc
  have := writeBulks_log_ns respond ns batches [] c (by rw [hw]; exact hc)
  rcases this with h | h
  · cases h
  · exact h

/-! ## Claim theorems -/

/-- Small cap configuration used for the C1 counterexample: per-entry
cap of 4 bytes. -/
def tinyLimits : Limits :=
  { maxFileSize := 4, maxMetadataSize := 100, maxBulkWritePayload := 1000,
    maxBulkKeys := 10 }

/-- A request whose raw value (4 bytes) is within the per-entry cap but
whose base64 encoding (8 bytes) is not. -/
def inflatedReq : WriteReq :=
  { key := "k", name := "k", value := [0, 0, 0, 0], meta := none }

/-- C1 (counterexample): with a per-entry cap of 4 bytes, a request
whose raw value is exactly 4 bytes is accepted into a batch (and no
diagnostic is recorded) even though its base64-encoded length is
8 > 4 — so the per-entry cap decision is made on the raw length, not
the encoded length, contradicting the claim. -/
theorem entry_cap_not_post_encoding_counterexample :
    ((buildBulks tinyLimits [inflatedReq]).1.flatten.map
      (fun p => p.value.length)) = [8] ∧
    (buildBulks tinyLimits [inflatedReq]).2.1 = [] ∧
    8 > tinyLimits.maxFileSize := by
  refine ⟨?_, ?_, by decide⟩ <;> decide

/-- C1 (amended): the per-entry cap decision of `encodeAndWriteKVBulk`
is made on the *raw* value length (and raw serialized-metadata length):
the entries placed into batches are exactly those whose raw value is at
most `MaxFileSize` and whose metadata JSON is at most `MaxMetadataSize`,
each carried as its base64 transport encoding. -/
theorem entry_cap_uses_raw_size (L : Limits) (kvs : List WriteReq) :
    (buildBulks L kvs).1.flatten = (kvs.filter (keep L)).map toPair :=
  buildBulks_flatten L kvs

/-- C2: whenever the configured caps are mutually compatible (one
accepted entry always fits an empty batch), every batch produced by the
batching pass has cumulative encoded payload at most
`MaxBulkWritePayload` and at most `MaxBulkKeys` entries. -/
theorem batches_within_caps (L : Limits) (hcompat : capsCompatible L)
    (kvs : List WriteReq) :
    ∀ b ∈ (buildBulks L kvs).1,
      batchSize b ≤ L.maxBulkWritePayload ∧ b.length ≤ L.maxBulkKeys :=
  fun b hb => buildBulks_goodBatches L hcompat kvs b hb

/-- A small cap configuration satisfying `capsCompatible`. -/
def mediumLimits : Limits :=
  { maxFileSize := 100, maxMetadataSize := 10, maxBulkWritePayload := 200,
    maxBulkKeys := 5 }

theorem batches_within_caps_witness :
    capsCompatible mediumLimits ∧
    ∀ b ∈ (buildBulks mediumLimits
        [{ key := "k", name := "k", value := [2, 3], meta := none }]).1,
      batchSize b ≤ 200 ∧ b.length ≤ 5 :=
  ⟨by constructor <;> decide,
   batches_within_caps mediumLimits (by constructor <;> decide) _⟩

/-- C10: when the input is empty or every request is dropped as
oversized, the batching pass still appends one final empty batch and the
write loop issues exactly one bulk call carrying zero entries. -/
theorem empty_input_single_empty_call
    (respond : Backend) (L : Limits) (kvs : List WriteReq) (ns : String)
    (hall : ∀ kv ∈ kvs, ¬ keep L kv = true) :
    (buildBulks L kvs).1 = [[]] ∧
    (encodeAndWriteKVBulk respond L kvs ns).1 = [{ ns := ns, pairs := [] }] := by
  have hfold := foldl_all_dropped L kvs initState hall
  have hbatches : (buildBulks L kvs).1 = [[]] := by
    simp only [buildBulks]
    rw [hfold.1, hfold.2]
    rfl
  refine ⟨hbatches, ?_⟩
  rcases hb : buildBulks L kvs with ⟨batches, dropped2, pushed⟩
  have hbs : batches = [[]] := by rw [hb] at hbatches; exact hbatches
  subst hbs
  rcases hw : writeBulks respond ns [[]] [] with ⟨log, err⟩
  simp only [encodeAndWriteKVBulk, hb, hw]
  simp only [writeBulks] at hw
  rcases hrb : respond ns [] with ⟨r, e⟩
  rw [hrb] at hw
  cases hcs : checkSuccess r e with
  | none =>
      rw [hcs] at hw
      simp only [writeBulks, List.nil_append] at hw
      injection hw with h1 h2
      exact h1.symm
  | some msg =>
      rw [hcs] at hw
      injection hw with h1 h2
      exact h1.symm

/-- C8: `checkSuccess` reports failure exactly when the transport call
errored or the response's `Success` flag is false, and the bulk write
loop succeeds exactly when every issued call passes `checkSuccess` — an
unsuccessful response is indistinguishable from a transport error. -/
theorem backend_failure_normalization :
    (∀ (r : CFResponse) (e : Option String),
        checkSuccess r e = none ↔ e = none ∧ r.success = true) ∧
    (∀ (respond : Backend) (ns : String) (bs : List (List KVPair))
        (log : List BulkCall),
        (writeBulks respond ns bs log).2 = none ↔
          ∀ b ∈ bs, checkSuccess (respond ns b).1 (respond ns b).2 = none) := by
  constructor
  · intro r e
    cases e with
    | none => cases hr : r.success <;> simp [checkSuccess, hr]
    | some msg => simp [checkSuccess]
  · intro respond ns bs log
    exact writeBulks_err_none_iff respond ns bs log

theorem backend_failure_normalization_witness :
    checkSuccess { success := false } none = none ↔
      (none = (none : Option String) ∧ false = true) :=
  backend_failure_normalization.1 { success := false } none

/-- A backend oracle that always succeeds. -/
def okBackend : Backend := fun _ _ => ({ success := true }, none)

/-- A backend oracle whose calls return without a transport error but
with `Success == false`. -/
def failBackend : Backend := fun _ _ => ({ success := false }, none)

theorem empty_input_single_empty_call_witness :
    (∀ kv ∈ ([] : List WriteReq), ¬ keep tinyLimits kv = true) ∧
    (encodeAndWriteKVBulk okBackend tinyLimits [] "n").1 =
      [{ ns := "n", pairs := [] }] :=
  ⟨by simp, (empty_input_single_empty_call okBackend tinyLimits [] "n"
    (by simp)).2⟩

/-- C3: entries whose raw value exceeds `MaxFileSize` or whose metadata
JSON exceeds `MaxMetadataSize` are excluded from every issued batch,
each leaving a recorded diagnostic, while the bulk write proceeds and
succeeds for all remaining entries. -/
theorem oversized_dropped_with_diagnostics
    (respond : Backend) (L : Limits) (kvs : List WriteReq) (ns : String)
    (hnodup : (kvs.map WriteReq.key).Nodup)
    (hok : ∀ b, checkSuccess (respond ns b).1 (respond ns b).2 = none) :
    (encodeAndWriteKVBulk respond L kvs ns).2.2.2 = none ∧
    (encodeAndWriteKVBulk respond L kvs ns).2.1 =
      (kvs.filter (fun kv => ¬ keep L kv)).map (diagOf L) ∧
    ((encodeAndWriteKVBulk respond L kvs ns).1.map BulkCall.pairs).flatten =
      (kvs.filter (keep L)).map toPair ∧
    ∀ kv ∈ kvs, ¬ keep L kv = true →
      ∀ c ∈ (encodeAndWriteKVBulk respond L kvs ns).1, ∀ p ∈ c.pairs,
        p.key ≠ kv.key := by
  rcases hb : buildBulks L kvs with ⟨batches, dropped2, pushed⟩
  have herr : (writeBulks respond ns batches []).2 = none :=
    (writeBulks_err_none_iff respond ns batches []).mpr (fun b _ => hok b)
  have hlog : (writeBulks respond ns batches []).1 =
      batches.map (fun b => { ns := ns, pairs := b }) := by
    rw [writeBulks_log_of_ok respond ns batches [] (fun b _ => hok b)]
    simp
  rcases hw : writeBulks respond ns batches [] with ⟨log, err⟩
  rw [hw] at herr hlog
  simp only at herr hlog
  subst herr
  subst hlog
  have hflat : batches.flatten = (kvs.filter (keep L)).map toPair := by
    have h := buildBulks_flatten L kvs
    rw [hb] at h
    exact h
  have hdrop : dropped2 = (kvs.filter (fun kv => ¬ keep L kv)).map (diagOf L) := by
    have h := buildBulks_dropped L kvs
    rw [hb] at h
    exact h
  simp only [encodeAndWriteKVBulk, hb, hw]
  refine ⟨by trivial, hdrop, ?_, ?_⟩
  · simp only [List.map_map]
    have hcomp : (BulkCall.pairs ∘ fun b => ({ ns := ns, pairs := b } : BulkCall)) = id := rfl
    rw [hcomp, List.map_id, hflat]
  · intro kv hkv hnk c hc p hp heq
    have hpflat : p ∈ batches.flatten := by
      simp only [List.mem_map] at hc
      obtain ⟨b, hbmem, hcb⟩ := hc
      refine List.mem_flatten.mpr ⟨b, hbmem, ?_⟩
      rw [← hcb] at hp
      exact hp
    rw [hflat] at hpflat
    obtain ⟨kv2, hkv2mem, hkv2eq⟩ := List.mem_map.mp hpflat
    have hkv2keys : kv2.key = kv.key := by
      rw [← hkv2eq] at heq
      exact heq
    have hkv2in := (List.mem_filter.mp hkv2mem).1
    have hkeep2 := (List.mem_filter.mp hkv2mem).2
    have hsame : kv2 = kv := List.inj_on_of_nodup_map hnodup hkv2in hkv hkv2keys
    exact hnk (hsame ▸ hkeep2)

theorem oversized_dropped_with_diagnostics_witness :
    ((([{ key := "a", name := "a", value := [1], meta := none },
        { key := "b", name := "b", value := [1, 2, 3, 4, 5], meta := none }] :
          List WriteReq).map WriteReq.key).Nodup) ∧
    (encodeAndWriteKVBulk okBackend tinyLimits
        [{ key := "a", name := "a", value := [1], meta := none },
         { key := "b", name := "b", value := [1, 2, 3, 4, 5], meta := none }]
        "n").2.1 = [Diag.oversizedFile "b" 5] :=
  ⟨by decide, by
    have h := (oversized_dropped_with_diagnostics okBackend tinyLimits
      [{ key := "a", name := "a", value := [1], meta := none },
       { key := "b", name := "b", value := [1, 2, 3, 4, 5], meta := none }]
      "n" (by decide) (fun b => rfl)).2.1
    exact h.trans (by decide)⟩

/-- C4: if the files-phase bulk write of `InsertNewVersionToKV` fails,
the function returns that error and no call is issued to the versions
namespace — in particular no VersionManifest write is attempted. -/
theorem no_manifest_write_on_files_failure
    (respond : Backend) (L : Limits) (filesNS versionsNS : String)
    (br gz : List Nat → List Nat) (pkg version : String)
    (files : List FileInfo) (e : String)
    (hfail : (updateKVFiles respond L filesNS br gz pkg version files).2.2.2 =
      some e)
    (hns : filesNS ≠ versionsNS) :
    (insertNewVersionToKV respond L filesNS versionsNS br gz pkg version
      files).2 = some e ∧
    ∀ c ∈ (insertNewVersionToKV respond L filesNS versionsNS br gz pkg version
      files).1, c.ns ≠ versionsNS := by
  simp only [updateKVFiles] at hfail
  rcases hres : encodeAndWriteKVBulk respond L
      (getFileWriteRequests br gz pkg version files) filesNS with
    ⟨log1, dropped1, names1, err1⟩
  rw [hres] at hfail
  simp only at hfail
  subst hfail
  simp only [insertNewVersionToKV, updateKVFiles, hres]
  refine ⟨by trivial, ?_⟩
  intro c hc
  have hcns : c.ns = filesNS := by
    apply encodeAndWriteKVBulk_log_ns respond L
      (getFileWriteRequests br gz pkg version files) filesNS
    rw [hres]
    exact hc
  rw [hcns]
  exact hns

theorem no_manifest_write_on_files_failure_witness :
    (updateKVFiles failBackend tinyLimits "f" sampleBr sampleGz "p" "1.0.0"
      []).2.2.2 = some "kv fail" ∧
    (insertNewVersionToKV failBackend tinyLimits "f" "v" sampleBr sampleGz
      "p" "1.0.0" []).2 = some "kv fail" :=
  ⟨by decide, (no_manifest_write_on_files_failure failBackend tinyLimits
    "f" "v" sampleBr sampleGz "p" "1.0.0" [] "kv fail" (by decide)
    (by decide)).1⟩

/-- C9: when inserting one version of a package fails, that package's
remaining versions are skipped in the run, the package still reports its
summary result (with the totals accumulated over every attempted
version, the failing one included), and every other queued package is
still processed to completion, its own result untouched. -/
theorem version_failure_isolated
    (ins : String → String → VersionOutcome) (pckgs : List PkgData)
    (i : Nat) (hi : i < pckgs.length) (j : Nat) (e : String)
    (hget : (pckgs.get ⟨i, hi⟩).getOk = true)
    (hj : j < (pckgs.get ⟨i, hi⟩).versions.length)
    (hok : ∀ k (hk : k < j),
      (ins (pckgs.get ⟨i, hi⟩).name
        ((pckgs.get ⟨i, hi⟩).versions.get ⟨k, by omega⟩)).err = none)
    (hfail : (ins (pckgs.get ⟨i, hi⟩).name
      ((pckgs.get ⟨i, hi⟩).versions.get ⟨j, hj⟩)).err = some e) :
    (insertFromDisk ins pckgs).length = pckgs.length ∧
    (∀ k (hk : k < pckgs.length),
        (insertFromDisk ins pckgs).get ⟨k, by simpa [insertFromDisk] using hk⟩ =
          processPackage ins (pckgs.get ⟨k, hk⟩)) ∧
    (processPackage ins (pckgs.get ⟨i, hi⟩)).2.1 =
      (pckgs.get ⟨i, hi⟩).versions.take (j + 1) ∧
    (processPackage ins (pckgs.get ⟨i, hi⟩)).2.2 = some e ∧
    (processPackage ins (pckgs.get ⟨i, hi⟩)).1 =
      { name := (pckgs.get ⟨i, hi⟩).name
        theoreticalSRIKeys := (((pckgs.get ⟨i, hi⟩).versions.take (j + 1)).map
          (fun v => (ins (pckgs.get ⟨i, hi⟩).name v).sriKeys)).sum
        theoreticalFileKeys := (((pckgs.get ⟨i, hi⟩).versions.take (j + 1)).map
          (fun v => (ins (pckgs.get ⟨i, hi⟩).name v).fileKeys)).sum } := by
  have hpv := processVersions_fail ins (pckgs.get ⟨i, hi⟩).name e
    (pckgs.get ⟨i, hi⟩).versions j 0 0 hj hok hfail
  refine ⟨by simp [insertFromDisk], ?_, ?_, ?_, ?_⟩
  · intro k hk
    simp [insertFromDisk]
  · simp only [processPackage, hget]
    rw [hpv]
    simp
  · simp only [processPackage, hget]
    rw [hpv]
    simp
  · simp only [processPackage, hget]
    rw [hpv]
    simp

/-- Version-insertion oracle for the C9 witness: version "2" fails. -/
def insW : String → String → VersionOutcome := fun _ v =>
  if v = "2" then { sriKeys := 1, fileKeys := 2, err := some "boom" }
  else { sriKeys := 1, fileKeys := 2, err := none }

/-- Two queued packages for the C9 witness. -/
def pckgsW : List PkgData :=
  [{ name := "q", getOk := true, versions := ["1", "2", "3"] },
   { name := "r", getOk := true, versions := ["1"] }]

theorem version_failure_isolated_witness :
    (1 < (pckgsW.get ⟨0, by decide⟩).versions.length) ∧
    (processPackage insW (pckgsW.get ⟨0, by decide⟩)).2.1 = ["1", "2"] :=
  ⟨by decide, by
    have h := (version_failure_isolated insW pckgsW 0 (by decide) 1 "boom"
      (by decide) (by decide) (by decide) (by decide)).2.2.1
    exact h.trans (by decide)⟩

/-! ## Published file names (for the version manifest) -/

/-- The published name(s) one source file contributes, by extension
class: nothing for ignored files, the original name for do-not-compress
files, and the two suffixed names for default-class files. -/
def perFileNames (f : FileInfo) : List String :=
  if isIgnoredExt (pathExt f.path) then []
  else if isDoNotCompressExt (pathExt f.path) then [f.path]
  else [f.path ++ ".br", f.path ++ ".gz"]

/-- The names carried by the file write requests are exactly the
suffixed published names. -/
theorem names_of_getFileWriteRequests (br gz : List Nat → List Nat)
    (pkg version : String) (files : List FileInfo) :
    (getFileWriteRequests br gz pkg version files).map WriteReq.name =
      files.flatMap perFileNames := by
  simp only [getFileWriteRequests, List.map_flatMap]
  congr 1
  funext f
  by_cases hig : isIgnoredExt (pathExt f.path)
  · simp [perFileRequests, perFileNames, hig]
  · by_cases hdnc : isDoNotCompressExt (pathExt f.path)
    · simp [perFileRequests, perFileNames, hig, hdnc]
    · simp [perFileRequests, perFileNames, hig, hdnc]

/-- Batching a single accepted, metadata-free request that fits an
empty batch yields exactly one one-entry batch. -/
theorem buildBulks_single (L : Limits) (kv : WriteReq)
    (h1 : kv.value.length ≤ L.maxFileSize) (hm : kv.meta = none)
    (hp : (encodeToBase64 kv.value).length ≤ L.maxBulkWritePayload)
    (hk : L.maxBulkKeys ≠ 0) :
    buildBulks L [kv] = ([[toPair kv]], [], [kv.name]) := by
  simp only [buildBulks, List.foldl_cons, List.foldl_nil, bulkStep, initState]
  rw [if_neg (by omega : ¬ kv.value.length > L.maxFileSize)]
  simp only [hm, addPair]
  rw [if_neg ?hcond]
  case hcond =>
    rintro (h | h)
    · simp only [Nat.zero_add] at h
      omega
    · exact hk h.symm
  simp [toPair, hm]

/-- The write loop over a single batch that the backend accepts issues
exactly that one call and succeeds. -/
theorem writeBulks_single_ok (respond : Backend) (ns : String)
    (b : List KVPair)
    (h : checkSuccess (respond ns b).1 (respond ns b).2 = none) :
    writeBulks respond ns [b] [] = ([{ ns := ns, pairs := b }], none) := by
  have h1 := writeBulks_log_of_ok respond ns [b] []
    (fun x hx => by rwa [List.mem_singleton.mp hx])
  have h2 := (writeBulks_err_none_iff respond ns [b] []).mpr
    (fun x hx => by rwa [List.mem_singleton.mp hx])
  rcases hw : writeBulks respond ns [b] [] with ⟨log, err⟩
  rw [hw] at h1 h2
  simp only at h1 h2
  rw [h1, h2]
  simp

/-- C7: on a fully successful publish, the single call issued to the
versions namespace carries the VersionManifest entry: its value is the
(base64-wrapped) JSON array of exactly the published (pushed) file
names, and those names are the final suffixed names (`.br`/`.gz` for
default-class files, the unsuffixed original only for do-not-compress
files), never the unsuffixed names of default-class source files. -/
theorem manifest_lists_published_suffixed_names
    (respond : Backend) (L : Limits) (filesNS versionsNS : String)
    (br gz : List Nat → List Nat) (pkg version : String)
    (files : List FileInfo)
    (hne : filesNS ≠ versionsNS)
    (hok : ∀ n b, checkSuccess (respond n b).1 (respond n b).2 = none)
    (hmanSize : (strBytes (jsonMarshalStringList
        (((getFileWriteRequests br gz pkg version files).filter (keep L)).map
          WriteReq.name))).length ≤ L.maxFileSize)
    (hpayload : (encodeToBase64 (strBytes (jsonMarshalStringList
        (((getFileWriteRequests br gz pkg version files).filter (keep L)).map
          WriteReq.name)))).length ≤ L.maxBulkWritePayload)
    (hkeys : L.maxBulkKeys ≠ 0) :
    (insertNewVersionToKV respond L filesNS versionsNS br gz pkg version
      files).2 = none ∧
    ((insertNewVersionToKV respond L filesNS versionsNS br gz pkg version
        files).1.filter (fun c => c.ns == versionsNS)) =
      [{ ns := versionsNS,
         pairs := [toPair (updateVersionRequest pkg version
           (((getFileWriteRequests br gz pkg version files).filter
             (keep L)).map WriteReq.name))] }] ∧
    (getFileWriteRequests br gz pkg version files).map WriteReq.name =
      files.flatMap perFileNames := by
  have hlog1ns := encodeAndWriteKVBulk_log_ns respond L
    (getFileWriteRequests br gz pkg version files) filesNS
  rcases hbb : buildBulks L (getFileWriteRequests br gz pkg version files) with
    ⟨batches1, d1, pushed1⟩
  have herr1 : (writeBulks respond filesNS batches1 []).2 = none :=
    (writeBulks_err_none_iff respond filesNS batches1 []).mpr
      (fun b _ => hok filesNS b)
  rcases hw1 : writeBulks respond filesNS batches1 [] with ⟨log1, err1⟩
  rw [hw1] at herr1
  simp only at herr1
  subst herr1
  have hpushed : pushed1 = ((getFileWriteRequests br gz pkg version
      files).filter (keep L)).map WriteReq.name := by
    have h := buildBulks_pushed L (getFileWriteRequests br gz pkg version files)
    rw [hbb] at h
    exact h
  have hreqval : (updateVersionRequest pkg version pushed1).value.length ≤
      L.maxFileSize := by
    simp only [updateVersionRequest, hpushed]
    exact hmanSize
  have hreqpay : (encodeToBase64 (updateVersionRequest pkg version
      pushed1).value).length ≤ L.maxBulkWritePayload := by
    simp only [updateVersionRequest, hpushed]
    exact hpayload
  have hsingle := buildBulks_single L (updateVersionRequest pkg version pushed1)
    hreqval rfl hreqpay hkeys
  have hw2 := writeBulks_single_ok respond versionsNS
    [toPair (updateVersionRequest pkg version pushed1)]
    (hok versionsNS _)
  have hmain : insertNewVersionToKV respond L filesNS versionsNS br gz pkg
      version files =
      (log1 ++ [{ ns := versionsNS,
                  pairs := [toPair (updateVersionRequest pkg version pushed1)] }],
        none) := by
    simp only [insertNewVersionToKV, updateKVFiles, updateKVVersion,
      encodeAndWriteKVBulk, hbb, hw1, hsingle, hw2]
    simp
    rw [hsingle]
    simp [hw2]
  rw [hmain]
  have hlog1ns' : ∀ c ∈ log1, c.ns = filesNS := by
    intro c hc
    apply hlog1ns
    simp only [encodeAndWriteKVBulk, hbb, hw1]
    exact hc
  refine ⟨rfl, ?_, names_of_getFileWriteRequests br gz pkg version files⟩
  simp only [List.filter_append]
  have hfilter1 : log1.filter (fun c => c.ns == versionsNS) = [] := by
    apply List.filter_eq_nil_iff.mpr
    intro c hc
    simp only [beq_iff_eq]
    rw [hlog1ns' c hc]
    exact hne
  rw [hfilter1, List.nil_append, hpushed]
  simp

/-- Generous caps for the C7 witness. -/
def bigLimits : Limits :=
  { maxFileSize := 1000, maxMetadataSize := 100, maxBulkWritePayload := 10000,
    maxBulkKeys := 100 }

theorem manifest_lists_published_suffixed_names_witness :
    ("f" : String) ≠ "v" ∧
    (insertNewVersionToKV okBackend bigLimits "f" "v" sampleBr sampleGz
      "p" "1.0.0" sampleFiles).2 = none :=
  ⟨by decide, (manifest_lists_published_suffixed_names okBackend bigLimits
    "f" "v" sampleBr sampleGz "p" "1.0.0" sampleFiles (by decide)
    (fun n b => rfl) (by decide) (by decide) (by decide)).1⟩

end Cdnjs
